import Mathlib

/-!
Verification of the multi-view image preprocessing transforms in
`dataset/transform_3d.py` (padding, normalization, flipping, photometric
distortion, rescaling).  Images are modelled as lists of rows of pixels,
a pixel being a triple of rational channel values (channel 0, 1, 2); the
per-sample record is modelled per transform by a structure holding the
fields that transform reads and writes.  Randomness is modelled by passing
the sampled draws explicitly.  The external image library primitives
(`mmcv.impad`, `mmcv.impad_to_multiple`, `mmcv.imflip`, `mmcv.imresize`,
`mmcv.imnormalize`, `mmcv.bgr2hsv`, `mmcv.hsv2bgr`) are modelled after
their documented float semantics.
-/

namespace SelfOcc

/-- A pixel: three rational channel values (channel 0, channel 1, channel 2).
For a BGR image, channel 0 is blue, 1 green, 2 red; for an HSV image,
channel 0 is hue (degrees), 1 saturation, 2 value. -/
abbrev Pixel : Type := Rat × Rat × Rat

/-- An image: a list of rows, each row a list of pixels.  Height is the
number of rows, width the length of row 0 (numpy arrays are rectangular). -/
abbrev Image : Type := List (List Pixel)

/-- Image width, `img.shape[1]` of a rectangular numpy array. -/
def Image.width (img : Image) : Nat := (img.headD []).length

/-- The spatial dimensions of an image: height together with each row's
length (for a rectangular image the second component is `replicate height width`). -/
def dims (img : Image) : Nat × List Nat := (img.length, img.map List.length)

/-- Pixel access with a default, `img[i][j]` guarded. -/
def px (img : Image) (i j : Nat) (d : Pixel) : Pixel := (img.getD i []).getD j d

/-- Models `mmcv.impad(img, shape=(H, W), pad_val=v)`: pads on the bottom and
right up to `(H, W)` with the constant fill value `v` in every channel.
mmcv computes the border widths as `max(shape - img.shape, 0)`, so an image
already larger than the target in a dimension keeps its size there. -/
def impad (img : Image) (H W : Nat) (v : Rat) : Image :=
  (List.range (max img.length H)).map (fun i =>
    (List.range (max (Image.width img) W)).map (fun j =>
      px img i j (v, v, v)))

/-- Models `mmcv.impad_to_multiple(img, d, pad_val=v)`: pads each spatial
dimension up to `d * ceil(dim / d)`. -/
def impad_to_multiple (img : Image) (d : Nat) (v : Rat) : Image :=
  impad img (d * ((img.length + d - 1) / d)) (d * ((Image.width img + d - 1) / d)) v

/-- Models `mmcv.imflip(img)` with the default horizontal direction: mirrors
each row left-right. -/
def imflip (img : Image) : Image := img.map List.reverse

/-- Python `int()` applied to a rational: truncation toward zero. -/
def pyTrunc (x : Rat) : Int := if 0 ≤ x then ⌊x⌋ else -⌊-x⌋

/-- Models `mmcv.imresize(img, (w, h))`: the output has `h` rows of `w`
pixels.  Content is modelled by nearest-neighbour sampling of the source
(the properties verified here depend only on the output dimensions). -/
def imresize (img : Image) (w h : Nat) : Image :=
  (List.range h).map (fun i =>
    (List.range w).map (fun j =>
      px img (i * img.length / h) (j * Image.width img / w) (0, 0, 0)))

/-- Configuration stored by `PadMultiViewImage.__init__`. -/
structure PadConfig where
  size : Option (Nat × Nat)
  size_divisor : Option Nat
  pad_val : Rat
deriving DecidableEq

/-- Models `PadMultiViewImage.__init__(size, size_divisor, pad_val)`.  The first
assertion rejects the call when both arguments are `None`; when `size` is
given, `size_divisor` is reset to `None` before the second assertion is
evaluated.  `none` models an `AssertionError`. -/
def padInit (size : Option (Nat × Nat)) (size_divisor : Option Nat) (pad_val : Rat) :
    Option PadConfig :=
  if size.isSome ∨ size_divisor.isSome then
    let sd := if size.isSome then none else size_divisor
    if size = none ∨ sd = none then some ⟨size, sd, pad_val⟩ else none
  else none

/-- Models `PadMultiViewImage._pad_img` restricted to the `img` field of the record
(the optional `extra_img` / `ori_img` lists are padded identically).  When
both `size` and `size_divisor` are `None` the Python body leaves
`padded_img` unbound and raises; this is modelled as `none`. -/
def padCall (cfg : PadConfig) (imgs : List Image) : Option (List Image) :=
  match cfg.size with
  | some (H, W) => some (imgs.map (fun img => impad img H W cfg.pad_val))
  | none =>
    match cfg.size_divisor with
    | some d => some (imgs.map (fun img => impad_to_multiple img d cfg.pad_val))
    | none => none

/-- Configuration stored by `NormalizeMultiviewImage.__init__`: per-channel
mean and standard deviation, and the BGR→RGB flag. -/
structure NormCfg where
  mean : Pixel
  std : Pixel
  to_rgb : Bool
deriving DecidableEq

/-- Models the BGR↔RGB channel reorder (`cv2.cvtColor`): channels 0 and 2
are exchanged.  The map is its own inverse. -/
def bgr2rgbPixel (p : Pixel) : Pixel := (p.2.2, p.2.1, p.1)

/-- Models `mmcv.imnormalize` on one pixel: optionally reorder BGR→RGB, then
apply `(channel - mean) / std` channelwise. -/
def imnormalizePixel (cfg : NormCfg) (p : Pixel) : Pixel :=
  let q := if cfg.to_rgb then bgr2rgbPixel p else p
  ((q.1 - cfg.mean.1) / cfg.std.1,
   (q.2.1 - cfg.mean.2.1) / cfg.std.2.1,
   (q.2.2 - cfg.mean.2.2) / cfg.std.2.2)

/-- Models `mmcv.imnormalize` on a whole image. -/
def imnormalize (cfg : NormCfg) (img : Image) : Image :=
  img.map (List.map (imnormalizePixel cfg))

/-- The inverse map of `imnormalizePixel` (`mmcv.imdenormalize`): multiply by
std, add mean, optionally reorder RGB→BGR. -/
def imdenormalizePixel (cfg : NormCfg) (p : Pixel) : Pixel :=
  let q : Pixel :=
    (p.1 * cfg.std.1 + cfg.mean.1,
     p.2.1 * cfg.std.2.1 + cfg.mean.2.1,
     p.2.2 * cfg.std.2.2 + cfg.mean.2.2)
  if cfg.to_rgb then bgr2rgbPixel q else q

/-- The inverse map of `imnormalize` on a whole image. -/
def imdenormalize (cfg : NormCfg) (img : Image) : Image :=
  img.map (List.map (imdenormalizePixel cfg))

/-- Models `NormalizeMultiviewImage.__call__` restricted to the `img` field: every
image of the record is normalized (the `img_norm_cfg` field added by the
call just records `cfg` itself). -/
def normalizeCall (cfg : NormCfg) (imgs : List Image) : List Image :=
  imgs.map (imnormalize cfg)

/-- The record fields read and written by `RandomFlip.__call__`. -/
structure FlipResults where
  img : List Image
  flip : Option Bool
deriving DecidableEq

/-- Models `RandomFlip.__call__`: one Bernoulli decision per call, `r` being the
`random.random()` draw in `[0, 1)`; if it fires every image is mirrored, and
the decision is recorded under the `flip` key. -/
def randomFlipCall (prob : Rat) (r : Rat) (res : FlipResults) : FlipResults :=
  let fl : Bool := decide (r < prob)
  { img := if fl then res.img.map imflip else res.img, flip := some fl }

/-- numpy dtypes relevant here. -/
inductive Dtype where
  | float32
  | float64
  | uint8
deriving DecidableEq

/-- A numpy image: a dtype tag together with the pixel data. -/
structure NpImage where
  dtype : Dtype
  data : Image
deriving DecidableEq

/-- Configuration stored by `PhotoMetricDistortionMultiViewImage.__init__`. -/
structure PhotoCfg where
  brightness_delta : Rat
  contrast_lower : Rat
  contrast_upper : Rat
  saturation_lower : Rat
  saturation_upper : Rat
  hue_delta : Rat
  use_swap_channel : Bool

/-- The random draws consumed for one image by
`PhotoMetricDistortionMultiViewImage.__call__`: each `…On` field is a
`random.randint(2)` coin, the rational fields are the `random.uniform`
draws, `mode` is the contrast-position coin (`mode == 1`), and `perm` the
`random.permutation(3)` channel index map. -/
structure PhotoDraws where
  brightOn : Bool
  brightDelta : Rat
  mode : Bool
  contrastOn : Bool
  alpha : Rat
  satOn : Bool
  satAlpha : Rat
  hueOn : Bool
  hueDelta : Rat
  swapOn : Bool
  perm : Fin 3 → Fin 3

/-- Channel accessor of a pixel. -/
def getC (p : Pixel) : Fin 3 → Rat
  | 0 => p.1
  | 1 => p.2.1
  | 2 => p.2.2

/-- Models the float BGR→HSV conversion (`mmcv.bgr2hsv` / OpenCV): value is
the channel maximum, saturation `(v - min) / v`, hue in degrees `[0, 360)`
from the dominant channel. -/
def bgr2hsvPixel (p : Pixel) : Pixel :=
  let b := p.1
  let g := p.2.1
  let r := p.2.2
  let v := max b (max g r)
  let m := min b (min g r)
  let s := if v = 0 then 0 else (v - m) / v
  let h0 :=
    if v = m then 0
    else if v = r then 60 * (g - b) / (v - m)
    else if v = g then 120 + 60 * (b - r) / (v - m)
    else 240 + 60 * (r - g) / (v - m)
  let h := if h0 < 0 then h0 + 360 else h0
  (h, s, v)

/-- Models the float HSV→BGR conversion (`mmcv.hsv2bgr` / OpenCV): sector
decomposition of the hue followed by the standard chroma reconstruction. -/
def hsv2bgrPixel (p : Pixel) : Pixel :=
  let h := p.1
  let s := p.2.1
  let v := p.2.2
  let i : Nat := (⌊h / 60⌋ % 6).toNat
  let f := h / 60 - ⌊h / 60⌋
  let a := v * (1 - s)
  let q := v * (1 - f * s)
  let t := v * (1 - (1 - f) * s)
  let rgb : Rat × Rat × Rat :=
    if i = 0 then (v, t, a)
    else if i = 1 then (q, v, a)
    else if i = 2 then (a, v, t)
    else if i = 3 then (a, q, v)
    else if i = 4 then (t, a, v)
    else (v, a, q)
  (rgb.2.2, rgb.2.1, rgb.1)

/-- The hue perturbation and wrap of lines 201–203: add the offset, subtract
360 where the result exceeds 360, then add 360 where it is negative. -/
def hueWrap (h delta : Rat) : Rat :=
  let h1 := h + delta
  let h2 := if h1 > 360 then h1 - 360 else h1
  if h2 < 0 then h2 + 360 else h2

/-- Add `delta` to every channel (`img += delta`). -/
def brightPixel (delta : Rat) (p : Pixel) : Pixel :=
  (p.1 + delta, p.2.1 + delta, p.2.2 + delta)

/-- Multiply every channel by `alpha` (`img *= alpha`). -/
def contrastPixel (alpha : Rat) (p : Pixel) : Pixel :=
  (p.1 * alpha, p.2.1 * alpha, p.2.2 * alpha)

/-- Scale the saturation channel (`img[..., 1] *= alpha`). -/
def satPixel (alpha : Rat) (p : Pixel) : Pixel := (p.1, p.2.1 * alpha, p.2.2)

/-- Perturb and wrap the hue channel (lines 201–203). -/
def huePixel (delta : Rat) (p : Pixel) : Pixel := (hueWrap p.1 delta, p.2.1, p.2.2)

/-- Reindex the channels (`img[..., perm]`): output channel `c` is input
channel `perm c`. -/
def permPixel (σ : Fin 3 → Fin 3) (p : Pixel) : Pixel :=
  (getC p (σ 0), getC p (σ 1), getC p (σ 2))

/-- Apply a pixel map to every pixel of an image. -/
def pixelMap (f : Pixel → Pixel) (img : Image) : Image := img.map (List.map f)

/-- Apply a pixel map to every pixel when the coin `b` fired. -/
def condPixelMap (b : Bool) (f : Pixel → Pixel) (img : Image) : Image :=
  if b then pixelMap f img else img

/-- The body of the per-image loop of
`PhotoMetricDistortionMultiViewImage.__call__` after the dtype assertion:
brightness, contrast in mode 1, BGR→HSV, saturation, hue, HSV→BGR,
contrast in mode 0, channel swap. -/
def distortOne (cfg : PhotoCfg) (d : PhotoDraws) (img : Image) : Image :=
  let s1 := condPixelMap d.brightOn (brightPixel d.brightDelta) img
  let s2 := condPixelMap (d.mode && d.contrastOn) (contrastPixel d.alpha) s1
  let s3 := pixelMap bgr2hsvPixel s2
  let s4 := condPixelMap d.satOn (satPixel d.satAlpha) s3
  let s5 := condPixelMap d.hueOn (huePixel d.hueDelta) s4
  let s6 := pixelMap hsv2bgrPixel s5
  let s7 := condPixelMap (!d.mode && d.contrastOn) (contrastPixel d.alpha) s6
  condPixelMap (d.swapOn && cfg.use_swap_channel) (permPixel d.perm) s7

/-- The per-image loop of `PhotoMetricDistortionMultiViewImage.__call__`,
image `k` consuming the draws `draws k`: each image must be float32 (the
assertion raising is modelled as `none`), and is then distorted. -/
def photoGo (cfg : PhotoCfg) (draws : Nat → PhotoDraws) :
    Nat → List NpImage → Option (List NpImage)
  | _, [] => some []
  | k, img :: rest =>
    if img.dtype = Dtype.float32 then
      (photoGo cfg draws (k + 1) rest).map
        (fun tail => ⟨Dtype.float32, distortOne cfg (draws k) img.data⟩ :: tail)
    else none

/-- Models `PhotoMetricDistortionMultiViewImage.__call__` restricted to the `img`
field of the record. -/
def photoCall (cfg : PhotoCfg) (draws : Nat → PhotoDraws) (imgs : List NpImage) :
    Option (List NpImage) :=
  photoGo cfg draws 0 imgs

/-- Configuration stored by `RandomScaleImageMultiViewImage.__init__`. -/
structure ScaleConfig where
  scales : List Rat
  ref_focal_len : Option Rat
  random_scale : Option (Rat × Rat)
  pad_scale_rate : List Rat
deriving DecidableEq

/-- Models `RandomScaleImageMultiViewImage.__init__(scales, ref_focal_len,
random_scale, pad_scale_rate)`: when `random_scale` is given it must be a
two-element range and `ref_focal_len` must be `None`; a missing
`pad_scale_rate` defaults to `[scales[0], scales[0]]` (an `IndexError` on an
empty `scales` is modelled as `none`); finally `scales` must have exactly
one element.  `none` models an exception. -/
def scaleInit (scales : List Rat) (ref_focal_len : Option Rat)
    (random_scale : Option (Rat × Rat)) (pad_scale_rate : Option (List Rat)) :
    Option ScaleConfig :=
  if random_scale.isSome ∧ ref_focal_len.isSome then none
  else
    match pad_scale_rate, scales with
    | none, [] => none
    | psr, sc =>
      let rate := psr.getD [sc.headD 0, sc.headD 0]
      if sc.length = 1 then some ⟨sc, ref_focal_len, random_scale, rate⟩ else none

/-- The record fields read by `RandomScaleImageMultiViewImage.__call__`:
the image list, the per-view focal lengths `metas['intrinsic'][:, 0, 0]`,
and any pre-existing `focal_ratios` entry of the record. -/
structure ScaleInput where
  img : List Image
  intrinsicFocal : List Rat
  focal_ratios : Option (List Rat)
deriving DecidableEq

/-- The record fields written by `RandomScaleImageMultiViewImage.__call__`. -/
structure ScaleOutput where
  img : List Image
  focal_ratios : Option (List Rat)
  focal_ratios_x : List Rat
  focal_ratios_y : List Rat
deriving DecidableEq

/-- The `rand_scales` list of `RandomScaleImageMultiViewImage.__call__`:
in random-ratio mode each `np.random.rand` draw `u` (given in `draws`)
yields `scales[0] * (u * (hi - lo) + lo)`; in focal mode
`scales[0] * (ref_focal_len / focal_len)` per view; otherwise the fixed
`scales[0]` for every view. -/
def effScales (cfg : ScaleConfig) (draws : List Rat) (res : ScaleInput) : List Rat :=
  match cfg.ref_focal_len with
  | some ref => res.intrinsicFocal.map (fun f => cfg.scales.headD 0 * (ref / f))
  | none =>
    match cfg.random_scale with
    | some (lo, hi) =>
      (draws.take res.img.length).map (fun u => cfg.scales.headD 0 * (u * (hi - lo) + lo))
    | none => List.replicate res.img.length (cfg.scales.headD 0)

/-- The `focal_ratios` value written by the call: the sampled ratios in
random-ratio mode, the `ref / focal_len` ratios in focal mode, and the
record's pre-existing entry (untouched) in plain fixed-scale mode. -/
def scaleFocalRatios (cfg : ScaleConfig) (draws : List Rat) (res : ScaleInput) :
    Option (List Rat) :=
  match cfg.ref_focal_len with
  | some ref => some (res.intrinsicFocal.map (fun f => ref / f))
  | none =>
    match cfg.random_scale with
    | some (lo, hi) =>
      some ((draws.take res.img.length).map (fun u => u * (hi - lo) + lo))
    | none => res.focal_ratios

/-- Models `RandomScaleImageMultiViewImage.__call__`: computes the per-view
effective scales, writes `focal_ratios` (in random and focal modes),
`focal_ratios_x = scale / pad_scale_rate[1]` and
`focal_ratios_y = scale / pad_scale_rate[0]`, and resizes image `i` to
width `int(w_i * scale_i)` and height `int(h_i * scale_i)`. -/
def scaleCall (cfg : ScaleConfig) (draws : List Rat) (res : ScaleInput) : ScaleOutput :=
  let randScales := effScales cfg draws res
  let ySize := (res.img.zip randScales).map
    (fun is => (pyTrunc ((is.1.length : Rat) * is.2)).toNat)
  let xSize := (res.img.zip randScales).map
    (fun is => (pyTrunc ((Image.width is.1 : Rat) * is.2)).toNat)
  { img := (List.range res.img.length).map
      (fun idx => imresize (res.img.getD idx []) (xSize.getD idx 0) (ySize.getD idx 0)),
    focal_ratios := scaleFocalRatios cfg draws res,
    focal_ratios_x := randScales.map (fun s => s / cfg.pad_scale_rate.getD 1 0),
    focal_ratios_y := randScales.map (fun s => s / cfg.pad_scale_rate.getD 0 0) }

/-- A concrete one-view record used to witness the flip specification. -/
def wFlipRes : FlipResults := { img := [[[(1, 2, 3)]]], flip := none }

/-- A concrete 2×3 image used to witness the padding specifications. -/
def wPadImg : Image :=
  [[(1, 1, 1), (2, 2, 2), (3, 3, 3)], [(4, 4, 4), (5, 5, 5), (6, 6, 6)]]

/-- A concrete normalization configuration used as witness. -/
def wNormCfg : NormCfg := { mean := (1, 2, 3), std := (2, 4, 8), to_rgb := true }

/-- A concrete configuration used to witness the photometric theorems. -/
def wPhotoCfg : PhotoCfg :=
  { brightness_delta := 32, contrast_lower := 4/5, contrast_upper := 6/5,
    saturation_lower := 4/5, saturation_upper := 6/5, hue_delta := 18,
    use_swap_channel := true }

/-- A concrete draw record with every coin off. -/
def wPhotoDraws : PhotoDraws :=
  { brightOn := false, brightDelta := 0, mode := false, contrastOn := false,
    alpha := 1, satOn := false, satAlpha := 1, hueOn := false, hueDelta := 0,
    swapOn := false, perm := id }

/-- A concrete one-view float32 record: a single grey 1×1 image. -/
def wPhotoImgs : List NpImage := [⟨Dtype.float32, [[(5, 5, 5)]]⟩]

/-- The concrete fixed-scale configuration `scales=[1/2]` with the default
`pad_scale_rate`. -/
def cfg1 : ScaleConfig := ⟨[1/2], none, none, [1/2, 1/2]⟩

/-- A concrete record with one 3×3 image and no focal metadata. -/
def res1 : ScaleInput :=
  { img := [List.replicate 3 (List.replicate 3 ((0:Rat), 0, 0))],
    intrinsicFocal := [], focal_ratios := none }

/-! ## Theorems -/

/-- C2 counterexample: giving both a fixed size and a divisor does **not**
fail — the constructor silently discards the divisor — so the claim that the
constructor fails when both are given is false. -/
theorem padInit_both_given_succeeds :
    padInit (some (900, 1600)) (some 32) 0 ≠ none := by decide

/-- C2 (amended): `PadMultiViewImage.__init__` fails exactly when neither a
fixed size nor a size divisor is given; when both are given it succeeds,
keeping the fixed size and resetting the divisor to `None`. -/
theorem padInit_success_iff (size : Option (Nat × Nat)) (sd : Option Nat) (v : Rat) :
    ((padInit size sd v).isSome ↔ (size.isSome ∨ sd.isSome)) ∧
    (∀ (s : Nat × Nat) (d : Nat),
      padInit (some s) (some d) v = some ⟨some s, none, v⟩) := by
  constructor
  · cases size <;> cases sd <;> simp [padInit]
  · intro s d
    simp [padInit]

/-- C3 counterexample: hue 350 with offset 10 (within `hue_delta = 18 ≤ 180`)
wraps to exactly 360, which is outside the claimed half-open interval
`[0, 360)` because the wrap uses the strict comparison `> 360`. -/
theorem hueWrap_not_halfOpen :
    ((0:Rat) ≤ 350 ∧ (350:Rat) < 360 ∧ -(18:Rat) ≤ 10 ∧ (10:Rat) ≤ 18 ∧ (18:Rat) ≤ 180) ∧
    ¬ (0 ≤ hueWrap 350 10 ∧ hueWrap 350 10 < 360) := by
  constructor
  · norm_num
  · intro h
    have : hueWrap 350 10 = 360 := by norm_num [hueWrap]
    rw [this] at h
    exact absurd h.2 (by norm_num)

/-- C3 (amended): for every input hue in `[0, 360)` and every offset in
`[-hue_delta, hue_delta]` with `hue_delta ≤ 180`, the wrapped hue stored by
the hue perturbation lies in the closed interval `[0, 360]` (the value 360
itself is attainable). -/
theorem hueWrap_range (hd h δ : Rat) (hbound : hd ≤ 180) (h0 : 0 ≤ h) (h1 : h < 360)
    (d0 : -hd ≤ δ) (d1 : δ ≤ hd) : 0 ≤ hueWrap h δ ∧ hueWrap h δ ≤ 360 := by
  simp only [hueWrap]
  split_ifs <;> constructor <;> linarith

/-- Witness for `hueWrap_range` at hue 350, offset 10, `hue_delta` 18. -/
theorem hueWrap_range_witness :
    ((18:Rat) ≤ 180 ∧ (0:Rat) ≤ 350 ∧ (350:Rat) < 360 ∧ -(18:Rat) ≤ 10 ∧ (10:Rat) ≤ 18) ∧
    (0 ≤ hueWrap 350 10 ∧ hueWrap 350 10 ≤ 360) :=
  ⟨by norm_num,
   hueWrap_range 18 350 10 (by norm_num) (by norm_num) (by norm_num) (by norm_num) (by norm_num)⟩

/-- Mirroring a row list twice restores it. -/
theorem imflip_imflip (img : Image) : imflip (imflip img) = img := by
  simp [imflip, List.map_map, Function.comp_def]

/-- C4: `RandomFlip.__call__` draws one shared Bernoulli decision per call
and records it under the `flip` key; with probability 0 it never mirrors,
with probability 1 it always mirrors every image, and the mirror is an
involution. -/
theorem randomFlip_spec (r : Rat) (res : FlipResults) (h0 : 0 ≤ r) (h1 : r < 1) :
    ((randomFlipCall 0 r res).img = res.img ∧ (randomFlipCall 0 r res).flip = some false) ∧
    ((randomFlipCall 1 r res).img = res.img.map imflip ∧
      (randomFlipCall 1 r res).flip = some true) ∧
    (∀ img : Image, imflip (imflip img) = img) := by
  have hno : ¬ (r < 0) := not_lt.mpr h0
  refine ⟨⟨?_, ?_⟩, ⟨?_, ?_⟩, fun img => imflip_imflip img⟩ <;>
    simp [randomFlipCall, hno, h1]

/-- Witness for `randomFlip_spec` at the draw `1/2` on a concrete record. -/
theorem randomFlip_spec_witness :
    ((0:Rat) ≤ 1/2 ∧ (1:Rat)/2 < 1) ∧
    (((randomFlipCall 0 (1/2) wFlipRes).img = wFlipRes.img ∧
        (randomFlipCall 0 (1/2) wFlipRes).flip = some false) ∧
     ((randomFlipCall 1 (1/2) wFlipRes).img = wFlipRes.img.map imflip ∧
        (randomFlipCall 1 (1/2) wFlipRes).flip = some true) ∧
     (∀ img : Image, imflip (imflip img) = img)) :=
  ⟨by norm_num, randomFlip_spec (1/2) wFlipRes (by norm_num) (by norm_num)⟩

/-- The padded image has `max h H` rows. -/
theorem impad_length (img : Image) (H W : Nat) (v : Rat) :
    (impad img H W v).length = max img.length H := by
  simp [impad]

/-- Every row of the padded image has `max w W` pixels. -/
theorem impad_row_length (img : Image) (H W : Nat) (v : Rat) :
    ∀ row ∈ impad img H W v, row.length = max (Image.width img) W := by
  intro row hrow
  simp only [impad, List.mem_map, List.mem_range] at hrow
  obtain ⟨i, _, rfl⟩ := hrow
  simp

/-- Inside the padded canvas, a pixel of the padded image is the guarded
read of the source image with the fill value as the default. -/
theorem impad_px (img : Image) (H W : Nat) (v : Rat) (i j : Nat)
    (hi : i < max img.length H) (hj : j < max (Image.width img) W) (d : Pixel) :
    px (impad img H W v) i j d = px img i j (v, v, v) := by
  unfold impad px
  simp [List.getD_eq_getD_get?, List.get?_eq_getElem?, List.getElem?_map,
    List.getElem?_range, hi, hj]

/-- C5: in fixed-size mode every image is padded to exactly the configured
size, pixels inside the original image are preserved, and every pixel of the
padded region equals the fill value. -/
theorem pad_fixed_spec (H W : Nat) (v : Rat) (cfg : PadConfig) (imgs : List Image)
    (hcfg : padInit (some (H, W)) none v = some cfg) :
    padCall cfg imgs = some (imgs.map (fun img => impad img H W v)) ∧
    ∀ img : Image, img.length ≤ H → Image.width img ≤ W →
      ((impad img H W v).length = H ∧
       (∀ row ∈ impad img H W v, row.length = W) ∧
       (∀ i j, i < img.length → j < Image.width img →
          px (impad img H W v) i j (v, v, v) = px img i j (v, v, v)) ∧
       (∀ i j, i < H → j < W → (img.length ≤ i ∨ (img.getD i []).length ≤ j) →
          px (impad img H W v) i j (v, v, v) = (v, v, v))) := by
  have hc : cfg = ⟨some (H, W), none, v⟩ := by
    simp [padInit] at hcfg
    exact hcfg.symm
  subst hc
  refine ⟨by simp [padCall], ?_⟩
  intro img hH hW
  have hmaxH : max img.length H = H := Nat.max_eq_right hH
  have hmaxW : max (Image.width img) W = W := Nat.max_eq_right hW
  refine ⟨by rw [impad_length, hmaxH], ?_, ?_, ?_⟩
  · intro row hrow
    rw [impad_row_length img H W v row hrow, hmaxW]
  · intro i j hi hj
    exact impad_px img H W v i j (by omega) (by omega) _
  · intro i j hi hj hout
    rw [impad_px img H W v i j (by omega) (by omega)]
    unfold px
    rcases hout with hrow | hcol
    · rw [List.getD_eq_default _ _ hrow]
      simp
    · rw [List.getD_eq_default _ _ hcol]

/-- For a positive divisor, `d * ((n + d - 1) / d)` is at least `n`. -/
theorem le_mul_ceil (n : Nat) {d : Nat} (hd : 0 < d) : n ≤ d * ((n + d - 1) / d) := by
  have h1 : (n + d - 1) % d < d := Nat.mod_lt _ hd
  have h2 : d * ((n + d - 1) / d) + (n + d - 1) % d = n + d - 1 := Nat.div_add_mod _ _
  omega

/-- For a positive divisor, `d * ((n + d - 1) / d)` is the least multiple of
`d` that is at least `n`. -/
theorem mul_ceil_le (n : Nat) {d : Nat} (hd : 0 < d) (m : Nat) (hdm : d ∣ m)
    (hnm : n ≤ m) : d * ((n + d - 1) / d) ≤ m := by
  obtain ⟨c, rfl⟩ := hdm
  have h1 : (n + d - 1) / d ≤ c := by
    rw [Nat.div_le_iff_le_mul_add_pred hd]
    omega
  exact Nat.mul_le_mul_left d h1

/-- C6: in divisor mode every spatial dimension of every output image is the
smallest multiple of the divisor that is at least the original dimension,
and the padded region equals the fill value. -/
theorem pad_divisor_spec (d : Nat) (v : Rat) (cfg : PadConfig) (imgs : List Image)
    (hd : 0 < d) (hcfg : padInit none (some d) v = some cfg) :
    padCall cfg imgs = some (imgs.map (fun img => impad_to_multiple img d v)) ∧
    ∀ img : Image,
      ((d ∣ (impad_to_multiple img d v).length ∧
        img.length ≤ (impad_to_multiple img d v).length ∧
        ∀ m, d ∣ m → img.length ≤ m → (impad_to_multiple img d v).length ≤ m) ∧
       (∀ row ∈ impad_to_multiple img d v,
          d ∣ row.length ∧ Image.width img ≤ row.length ∧
          ∀ m, d ∣ m → Image.width img ≤ m → row.length ≤ m)) ∧
      (∀ i j, (img.length ≤ i ∨ (img.getD i []).length ≤ j) →
        i < (impad_to_multiple img d v).length →
        (∀ row ∈ impad_to_multiple img d v, j < row.length) →
        px (impad_to_multiple img d v) i j (v, v, v) = (v, v, v)) := by
  have hc : cfg = ⟨none, some d, v⟩ := by
    simp [padInit] at hcfg
    exact hcfg.symm
  subst hc
  refine ⟨by simp [padCall], ?_⟩
  intro img
  have hH : max img.length (d * ((img.length + d - 1) / d)) =
      d * ((img.length + d - 1) / d) := Nat.max_eq_right (le_mul_ceil _ hd)
  have hW : max (Image.width img) (d * ((Image.width img + d - 1) / d)) =
      d * ((Image.width img + d - 1) / d) := Nat.max_eq_right (le_mul_ceil _ hd)
  have hlen : (impad_to_multiple img d v).length = d * ((img.length + d - 1) / d) := by
    rw [impad_to_multiple, impad_length, hH]
  have hrowlen : ∀ row ∈ impad_to_multiple img d v,
      row.length = d * ((Image.width img + d - 1) / d) := by
    intro row hrow
    rw [impad_to_multiple] at hrow
    rw [impad_row_length _ _ _ _ row hrow, hW]
  refine ⟨⟨?_, ?_⟩, ?_⟩
  · rw [hlen]
    exact ⟨Dvd.intro _ rfl, le_mul_ceil _ hd, fun m hm hnm => mul_ceil_le _ hd m hm hnm⟩
  · intro row hrow
    rw [hrowlen row hrow]
    exact ⟨Dvd.intro _ rfl, le_mul_ceil _ hd, fun m hm hnm => mul_ceil_le _ hd m hm hnm⟩
  · intro i j hout hi hj
    have hne : impad_to_multiple img d v ≠ [] := by
      intro hnil
      rw [hnil] at hi
      simp at hi
    obtain ⟨row0, hrow0⟩ : ∃ row, row ∈ impad_to_multiple img d v :=
      List.exists_mem_of_ne_nil _ hne
    have hj0 : j < max (Image.width img) (d * ((Image.width img + d - 1) / d)) := by
      have := hj row0 hrow0
      rw [hrowlen row0 hrow0] at this
      omega
    have hi0 : i < max img.length (d * ((img.length + d - 1) / d)) := by
      rw [hlen] at hi
      omega
    rw [impad_to_multiple, impad_px img _ _ v i j hi0 hj0]
    unfold px
    rcases hout with hrow | hcol
    · rw [List.getD_eq_default _ _ hrow]
      simp
    · rw [List.getD_eq_default _ _ hcol]

/-- Witness for `pad_fixed_spec`: the 2×3 image padded to 4×5 with fill 7. -/
theorem pad_fixed_spec_witness :
    padCall ⟨some (4, 5), none, 7⟩ [wPadImg] = some [impad wPadImg 4 5 7] ∧
    (impad wPadImg 4 5 7).length = 4 ∧
    px (impad wPadImg 4 5 7) 1 2 (7, 7, 7) = (6, 6, 6) ∧
    px (impad wPadImg 4 5 7) 3 4 (7, 7, 7) = (7, 7, 7) := by
  have h := pad_fixed_spec 4 5 7 ⟨some (4, 5), none, 7⟩ [wPadImg] (by decide)
  have h2 := h.2 wPadImg (by decide) (by decide)
  refine ⟨h.1, h2.1, ?_, h2.2.2.2 3 4 (by decide) (by decide) (by decide)⟩
  rw [h2.2.2.1 1 2 (by decide) (by decide)]
  decide

/-- Witness for `pad_divisor_spec`: the 2×3 image padded to multiples of 4. -/
theorem pad_divisor_spec_witness :
    (4 ∣ (impad_to_multiple wPadImg 4 7).length ∧
      wPadImg.length ≤ (impad_to_multiple wPadImg 4 7).length) ∧
    px (impad_to_multiple wPadImg 4 7) 3 3 (7, 7, 7) = (7, 7, 7) := by
  have h := pad_divisor_spec 4 7 ⟨none, some 4, 7⟩ [wPadImg] (by norm_num) (by decide)
  have h2 := h.2 wPadImg
  exact ⟨⟨h2.1.1.1, h2.1.1.2.1⟩, h2.2 3 3 (by decide) (by decide) (by decide)⟩

/-- Normalizing after denormalizing (and vice versa) is the identity on a
channel value when the standard deviation is nonzero. -/
theorem norm_comp (m s x : Rat) (hs : s ≠ 0) : (x * s + m - m) / s = x := by
  field_simp

/-- Denormalizing after normalizing is the identity on a channel value when
the standard deviation is nonzero. -/
theorem denorm_comp (m s x : Rat) (hs : s ≠ 0) : (x - m) / s * s + m = x := by
  field_simp

/-- Pixel-level round trip of normalization. -/
theorem normPixel_roundTrip (cfg : NormCfg) (h1 : cfg.std.1 ≠ 0)
    (h2 : cfg.std.2.1 ≠ 0) (h3 : cfg.std.2.2 ≠ 0) (p : Pixel) :
    imnormalizePixel cfg (imdenormalizePixel cfg p) = p ∧
    imdenormalizePixel cfg (imnormalizePixel cfg p) = p := by
  obtain ⟨⟨m1, m2, m3⟩, ⟨s1, s2, s3⟩, tr⟩ := cfg
  obtain ⟨a, b, c⟩ := p
  simp only at h1 h2 h3
  cases tr <;>
    simp [imnormalizePixel, imdenormalizePixel, bgr2rgbPixel, Prod.ext_iff,
      norm_comp, denorm_comp, h1, h2, h3]

/-- C7: `NormalizeMultiviewImage.__call__` maps every pixel of every image
to `(pixel - mean) / std` per channel after the optional BGR→RGB reorder,
and normalization is invertible given the same mean and std: the round trips
with the inverse map reproduce the image exactly. -/
theorem normalize_spec (cfg : NormCfg) (imgs : List Image)
    (h1 : cfg.std.1 ≠ 0) (h2 : cfg.std.2.1 ≠ 0) (h3 : cfg.std.2.2 ≠ 0) :
    (normalizeCall cfg imgs = imgs.map (fun img => img.map (List.map (fun p =>
        let q := if cfg.to_rgb then bgr2rgbPixel p else p
        ((q.1 - cfg.mean.1) / cfg.std.1,
         (q.2.1 - cfg.mean.2.1) / cfg.std.2.1,
         (q.2.2 - cfg.mean.2.2) / cfg.std.2.2))))) ∧
    (∀ img : Image, imnormalize cfg (imdenormalize cfg img) = img) ∧
    (∀ img : Image, imdenormalize cfg (imnormalize cfg img) = img) := by
  refine ⟨rfl, ?_, ?_⟩
  · intro img
    have hfun : ∀ p, imnormalizePixel cfg (imdenormalizePixel cfg p) = p :=
      fun p => (normPixel_roundTrip cfg h1 h2 h3 p).1
    simp [imnormalize, imdenormalize, List.map_map, Function.comp_def, hfun]
  · intro img
    have hfun : ∀ p, imdenormalizePixel cfg (imnormalizePixel cfg p) = p :=
      fun p => (normPixel_roundTrip cfg h1 h2 h3 p).2
    simp [imnormalize, imdenormalize, List.map_map, Function.comp_def, hfun]

/-- Witness for `normalize_spec` on a concrete one-pixel image. -/
theorem normalize_spec_witness :
    imnormalize wNormCfg (imdenormalize wNormCfg [[(4, 5, 6)]]) = [[(4, 5, 6)]] ∧
    imdenormalize wNormCfg (imnormalize wNormCfg [[(4, 5, 6)]]) = [[(4, 5, 6)]] := by
  have h := normalize_spec wNormCfg [] (by norm_num [wNormCfg]) (by norm_num [wNormCfg])
    (by norm_num [wNormCfg])
  exact ⟨h.2.1 [[(4, 5, 6)]], h.2.2 [[(4, 5, 6)]]⟩

/-- Mapping a pixel function over an image preserves its dimensions. -/
theorem dims_pixelMap (f : Pixel → Pixel) (img : Image) :
    dims (pixelMap f img) = dims img := by
  simp [dims, pixelMap, List.map_map, Function.comp_def]

/-- A conditionally applied pixel map preserves the dimensions. -/
theorem dims_condPixelMap (b : Bool) (f : Pixel → Pixel) (img : Image) :
    dims (condPixelMap b f img) = dims img := by
  cases b <;> simp [condPixelMap, dims_pixelMap]

/-- One pass of the photometric distortion preserves the dimensions. -/
theorem dims_distortOne (cfg : PhotoCfg) (d : PhotoDraws) (img : Image) :
    dims (distortOne cfg d img) = dims img := by
  simp [distortOne, dims_condPixelMap, dims_pixelMap]

/-- The per-image loop fails exactly when some image is not float32. -/
theorem photoGo_none_iff (cfg : PhotoCfg) (draws : Nat → PhotoDraws) :
    ∀ (imgs : List NpImage) (k : Nat),
      photoGo cfg draws k imgs = none ↔ ∃ img ∈ imgs, img.dtype ≠ Dtype.float32 := by
  intro imgs
  induction imgs with
  | nil => intro k; simp [photoGo]
  | cons img rest ih =>
    intro k
    by_cases hdt : img.dtype = Dtype.float32
    · simp [photoGo, hdt, Option.map_eq_none', ih (k + 1)]
    · simp [photoGo, hdt]

/-- C8: `PhotoMetricDistortionMultiViewImage.__call__` fails with an
assertion violation exactly when some image in the record's `img` list has a
dtype other than float32; with all-float32 input the dtype check never
fires. -/
theorem photo_dtype_spec (cfg : PhotoCfg) (draws : Nat → PhotoDraws)
    (imgs : List NpImage) :
    photoCall cfg draws imgs = none ↔ ∃ img ∈ imgs, img.dtype ≠ Dtype.float32 :=
  photoGo_none_iff cfg draws imgs 0

/-- On success, the per-image loop pairs every input image with an output
image of the same dimensions. -/
theorem photoGo_forall₂ (cfg : PhotoCfg) (draws : Nat → PhotoDraws) :
    ∀ (imgs : List NpImage) (k : Nat) (out : List NpImage),
      photoGo cfg draws k imgs = some out →
      List.Forall₂ (fun a b => dims b.data = dims a.data) imgs out := by
  intro imgs
  induction imgs with
  | nil =>
    intro k out h
    simp only [photoGo, Option.some.injEq] at h
    subst h
    exact List.Forall₂.nil
  | cons img rest ih =>
    intro k out h
    simp only [photoGo] at h
    split at h
    · rw [Option.map_eq_some'] at h
      obtain ⟨tail, htail, rfl⟩ := h
      exact List.Forall₂.cons (dims_distortOne cfg (draws k) img.data)
        (ih (k + 1) tail htail)
    · exact absurd h (by simp)

/-- C9: for every sequence of random draws and all-float32 input, the output
list of `PhotoMetricDistortionMultiViewImage.__call__` has the same length
as the input list and each output image has the same height and the same row
widths as the corresponding input image (pixels are 3-channel throughout). -/
theorem photo_shape_spec (cfg : PhotoCfg) (draws : Nat → PhotoDraws)
    (imgs out : List NpImage) (h : photoCall cfg draws imgs = some out) :
    out.length = imgs.length ∧
    List.Forall₂ (fun a b =>
      b.data.length = a.data.length ∧
      b.data.map List.length = a.data.map List.length) imgs out := by
  have hf := photoGo_forall₂ cfg draws imgs 0 out h
  refine ⟨hf.length_eq.symm, hf.imp ?_⟩
  intro a b hab
  rw [dims, dims, Prod.ext_iff] at hab
  exact hab

/-- The grey pixel is a fixed point of the HSV round trip. -/
theorem wPhoto_pixel : hsv2bgrPixel (bgr2hsvPixel (5, 5, 5)) = ((5:Rat), 5, 5) := by
  norm_num [bgr2hsvPixel, hsv2bgrPixel]

/-- Evaluating the photometric call on the concrete record. -/
theorem wPhoto_call :
    photoCall wPhotoCfg (fun _ => wPhotoDraws) wPhotoImgs = some wPhotoImgs := by
  simp [photoCall, photoGo, wPhotoImgs, wPhotoDraws, wPhotoCfg, distortOne,
    condPixelMap, pixelMap, wPhoto_pixel]

/-- Witness for `photo_shape_spec` on the concrete record. -/
theorem photo_shape_spec_witness :
    photoCall wPhotoCfg (fun _ => wPhotoDraws) wPhotoImgs = some wPhotoImgs ∧
    (wPhotoImgs.length = wPhotoImgs.length ∧
     List.Forall₂ (fun a b => b.data.length = a.data.length ∧
       b.data.map List.length = a.data.map List.length) wPhotoImgs wPhotoImgs) :=
  ⟨wPhoto_call,
   photo_shape_spec wPhotoCfg (fun _ => wPhotoDraws) wPhotoImgs wPhotoImgs wPhoto_call⟩

/-- The resized image has exactly `h` rows. -/
theorem imresize_length (img : Image) (w h : Nat) : (imresize img w h).length = h := by
  simp [imresize]

/-- Every row of the resized image has exactly `w` pixels. -/
theorem imresize_row_length (img : Image) (w h : Nat) :
    ∀ row ∈ imresize img w h, row.length = w := by
  intro row hrow
  simp only [imresize, List.mem_map, List.mem_range] at hrow
  obtain ⟨i, _, rfl⟩ := hrow
  simp

/-- C1 (amended): each image is resized to height `int(h * s)` and width
`int(w * s)` — Python `int()` truncation of the products, not rounding —
where `s` is that image's effective scale factor in any of the three
modes. -/
theorem scale_resize_dims (cfg : ScaleConfig) (draws : List Rat) (res : ScaleInput)
    (i : Nat) (hi : i < res.img.length)
    (hlen : (effScales cfg draws res).length = res.img.length) :
    ((scaleCall cfg draws res).img.getD i []).length
      = (pyTrunc (((res.img.getD i []).length : Rat)
          * (effScales cfg draws res).getD i 0)).toNat ∧
    (∀ row ∈ (scaleCall cfg draws res).img.getD i [],
      row.length = (pyTrunc ((Image.width (res.img.getD i []) : Rat)
          * (effScales cfg draws res).getD i 0)).toNat) := by
  have hz : ∀ (g : Image × Rat → Nat),
      ((res.img.zip (effScales cfg draws res)).map g).getD i 0
        = g (res.img.getD i [], (effScales cfg draws res).getD i 0) := by
    intro g
    have hilt : i < (res.img.zip (effScales cfg draws res)).length := by
      rw [List.length_zip, hlen]
      omega
    rw [List.getD_eq_getD_get?, List.get?_eq_getElem?, List.getElem?_map,
      List.getElem?_eq_getElem hilt, Option.map_some', Option.getD_some,
      List.getElem_zip, ← List.getD_eq_getElem res.img [],
      ← List.getD_eq_getElem (effScales cfg draws res) 0]
  have hkey : (scaleCall cfg draws res).img.getD i []
      = imresize (res.img.getD i [])
          (((res.img.zip (effScales cfg draws res)).map
              (fun is => (pyTrunc ((Image.width is.1 : Rat) * is.2)).toNat)).getD i 0)
          (((res.img.zip (effScales cfg draws res)).map
              (fun is => (pyTrunc ((is.1.length : Rat) * is.2)).toNat)).getD i 0) := by
    simp only [scaleCall]
    rw [List.getD_eq_getD_get?, List.get?_eq_getElem?, List.getElem?_map,
      List.getElem?_range hi, Option.map_some', Option.getD_some]
  rw [hkey, hz (fun is => (pyTrunc ((is.1.length : Rat) * is.2)).toNat),
    hz (fun is => (pyTrunc ((Image.width is.1 : Rat) * is.2)).toNat)]
  exact ⟨imresize_length _ _ _, imresize_row_length _ _ _⟩

/-- Witness for `scale_resize_dims`: the 3×3 image at fixed scale 1/2. -/
theorem scale_resize_dims_witness :
    (0 < res1.img.length) ∧
    ((scaleCall cfg1 [] res1).img.getD 0 []).length
      = (pyTrunc (((res1.img.getD 0 []).length : Rat)
          * (effScales cfg1 [] res1).getD 0 0)).toNat :=
  ⟨by norm_num [res1], (scale_resize_dims cfg1 [] res1 0 (by norm_num [res1]) rfl).1⟩

/-- C1 counterexample: the 3×3 image at fixed scale 1/2 is resized to
height `int(3 * 0.5) = 1`, while `round(3 * 0.5) = 2`: the target
dimensions are not the rounded products. -/
theorem scale_resize_not_round :
    ((scaleCall cfg1 [] res1).img.getD 0 []).length
      ≠ (round (((res1.img.getD 0 []).length : Rat) * (1/2))).toNat := by
  have h1 : ((scaleCall cfg1 [] res1).img.getD 0 []).length = 1 := by
    norm_num [scaleCall, effScales, cfg1, res1, pyTrunc, imresize, List.getD]
  have h2 : (round (((res1.img.getD 0 []).length : Rat) * (1/2))).toNat = 2 := by
    have h3 : ((res1.img.getD 0 []).length : Rat) = 3 := by norm_num [res1, List.getD]
    rw [h3]
    norm_num [round_eq]
    rfl
  omega

/-- C10: `RandomScaleImageMultiViewImage.__call__` always writes
`focal_ratios_x[i] = scale[i] / pad_scale_rate[1]` and
`focal_ratios_y[i] = scale[i] / pad_scale_rate[0]`; in plain fixed-scale
mode (default `pad_scale_rate = [scales[0], scales[0]]`, nonzero scale)
both lists are identically 1 and `focal_ratios` is left absent, while in
random-ratio and focal-length modes `focal_ratios` is written. -/
theorem scale_focal_ratios_spec (cfg : ScaleConfig) (draws : List Rat)
    (res : ScaleInput) :
    ((scaleCall cfg draws res).focal_ratios_x
      = (effScales cfg draws res).map (fun s => s / cfg.pad_scale_rate.getD 1 0)) ∧
    ((scaleCall cfg draws res).focal_ratios_y
      = (effScales cfg draws res).map (fun s => s / cfg.pad_scale_rate.getD 0 0)) ∧
    (∀ s : Rat, s ≠ 0 → ∀ cfg0 : ScaleConfig,
      scaleInit [s] none none none = some cfg0 → res.focal_ratios = none →
      (scaleCall cfg0 draws res).focal_ratios = none ∧
      (scaleCall cfg0 draws res).focal_ratios_x = List.replicate res.img.length 1 ∧
      (scaleCall cfg0 draws res).focal_ratios_y = List.replicate res.img.length 1) ∧
    ((cfg.random_scale.isSome ∨ cfg.ref_focal_len.isSome) →
      (scaleCall cfg draws res).focal_ratios.isSome) := by
  refine ⟨rfl, rfl, ?_, ?_⟩
  · intro s hs cfg0 hcfg0 hfr
    have hc : cfg0 = ⟨[s], none, none, [s, s]⟩ := by
      simpa [scaleInit] using hcfg0.symm
    subst hc
    refine ⟨?_, ?_, ?_⟩ <;>
      simp [scaleCall, scaleFocalRatios, effScales, hfr, List.map_replicate,
        div_self hs, List.getD]
  · intro hsome
    simp only [scaleCall, scaleFocalRatios]
    cases href : cfg.ref_focal_len with
    | some ref => simp
    | none =>
      cases hrand : cfg.random_scale with
      | some p => cases p with | mk lo hi => simp
      | none =>
        rw [href, hrand] at hsome
        simp at hsome

/-- Witness for `scale_focal_ratios_spec`: the fixed-scale configuration
`cfg1` on the concrete record `res1`. -/
theorem scale_focal_ratios_spec_witness :
    (scaleCall cfg1 [] res1).focal_ratios = none ∧
    (scaleCall cfg1 [] res1).focal_ratios_x = List.replicate res1.img.length 1 ∧
    (scaleCall cfg1 [] res1).focal_ratios_y = List.replicate res1.img.length 1 :=
  (scale_focal_ratios_spec cfg1 [] res1).2.2.1 (1/2) (by norm_num) cfg1 rfl rfl

end SelfOcc
